import Mathlib

/-!
Verification of the Trainer Lodge scraper core (`src/scraper/scrape_lodge.py`):
a shallow embedding of the wikitext parser (`parse_wikitext`, `parse_tier_content`),
the change detector (`compare_data`) and the changelog update of `save_data`,
together with theorems settling the specified properties.

Python dictionaries are embedded as insertion-ordered association lists
(`List (String × α)`); Python strings are embedded as `String` / `List Char`.
-/

namespace Lodge

/-- A category mapping: category name to ordered list of topic entries
(the value of one tier in the `tiers` dictionary). -/
abbrev Cats := List (String × List String)

/-- The `tiers` mapping of one trainer record: tier name to categories. -/
abbrev Tiers := List (String × Cats)

/-- One trainer record, as built by `parse_wikitext`:
`{"name": ..., "tiers": {...}}`. -/
structure Trainer where
  name : String
  tiers : Tiers
deriving DecidableEq, Repr

/-- A full dataset: trainer identifier to trainer record (a Python dict). -/
abbrev Dataset := List (String × Trainer)

/-- A change record emitted by `compare_data` (the `type` tag plus fields). -/
inductive ChangeRecord where
  | new_trainer (trainer : String) (details : String)
  | removed_trainer (trainer : String)
  | modified_trainer (trainer : String) (details : String)
deriving DecidableEq, Repr

/-- Association-list lookup, embedding Python `dict[key]` / `dict.get`. -/
def aget {α : Type} : List (String × α) → String → Option α
  | [], _ => none
  | (k', v) :: tl, k => if k' = k then some v else aget tl k

/-- Ordered insert for the insertion sort embedding Python `sorted`. -/
def insertB {α : Type} (le : α → α → Bool) (x : α) : List α → List α
  | [] => [x]
  | y :: ys => if le x y then x :: y :: ys else y :: insertB le x ys

/-- Insertion sort, embedding Python `sorted` (comparison passed in). -/
def sortB {α : Type} (le : α → α → Bool) : List α → List α
  | [] => []
  | x :: xs => insertB le x (sortB le xs)

/-- Code-point lexicographic order on character lists (Python `str` `<=`). -/
def lexLe : List Char → List Char → Bool
  | [], _ => true
  | _ :: _, [] => false
  | a :: as, b :: bs => if a = b then lexLe as bs else decide (a.toNat < b.toNat)

/-- Python string comparison `a <= b` (code-point lexicographic). -/
def strLe (a b : String) : Bool := lexLe a.data b.data

/-- The key list of a dataset dict, i.e. Python `set(d.keys())`
(deduplicated; dict keys are unique anyway). -/
def keysOf (d : Dataset) : List String := (d.map Prod.fst).dedup

/-- The `tiers` field of `d[name]`, i.e. `d[name].get("tiers", {})`. -/
def tiersAt (d : Dataset) (n : String) : Tiers :=
  ((aget d n).getD ⟨"", []⟩).tiers

/-- Canonicalize one tier's categories by key order
(embedding `json.dumps(..., sort_keys=True)` at the category level). -/
def canonCats (c : Cats) : Cats := sortB (fun a b => strLe a.1 b.1) c

/-- Canonicalize a `tiers` mapping by key order at every dict level:
two tier mappings have equal `json.dumps(..., sort_keys=True)` strings
iff their canonicalizations are equal. -/
def canonTiers (t : Tiers) : Tiers :=
  sortB (fun a b => strLe a.1 b.1) (t.map (fun p => (p.1, canonCats p.2)))

/-- Total topic count of a `tiers` mapping (the nested `sum` in the
`new_trainer` branch of `compare_data`). -/
def topicCount (tiers : Tiers) : Nat :=
  (tiers.map (fun p => (p.2.map (fun q => q.2.length)).sum)).sum

/-- Category key list of the tier named `t` (empty when the tier is absent). -/
def catKeys (tiers : Tiers) (t : String) : List String :=
  ((aget tiers t).getD []).map Prod.fst

/-- Topic list at tier `t`, category `c` (empty defaults, as in
`old_tiers.get(tier_name, {})` and `old_cats.get(cat_name, [])`). -/
def topicsAt (tiers : Tiers) (t : String) (c : String) : List String :=
  (aget ((aget tiers t).getD []) c).getD []

/-- The per-(tier, category) diff lines of the modified-trainer branch of
`compare_data`: one `+[tier/cat]: ...` line per non-empty added set and one
`-[tier/cat]: ...` line per non-empty removed set, sets compared as
Python `set(new) - set(old)` / `set(old) - set(new)`, sorted. -/
def diffDetails (ot nt : Tiers) : List String :=
  let allT := sortB strLe ((ot.map Prod.fst ++ nt.map Prod.fst).dedup)
  allT.flatMap (fun t =>
    let oc : Cats := (aget ot t).getD []
    let nc : Cats := (aget nt t).getD []
    let allC := sortB strLe ((oc.map Prod.fst ++ nc.map Prod.fst).dedup)
    allC.flatMap (fun c =>
      let oldTopics := (aget oc c).getD []
      let newTopics := (aget nc c).getD []
      let added := sortB strLe (newTopics.dedup.filter (fun x => !(oldTopics.contains x)))
      let removed := sortB strLe (oldTopics.dedup.filter (fun x => !(newTopics.contains x)))
      (if added ≠ [] then
        ["+[" ++ t ++ "/" ++ c ++ "]: " ++ String.intercalate ", " added] else []) ++
      (if removed ≠ [] then
        ["-[" ++ t ++ "/" ++ c ++ "]: " ++ String.intercalate ", " removed] else [])))

/-- The modified-trainer record for one common identifier, or `none` when the
canonical tier structures agree or all set diffs are empty
(the `continue` and the `if details:` guard of `compare_data`). -/
def modRecordFor (old_data new_data : Dataset) (n : String) : Option ChangeRecord :=
  if canonTiers (tiersAt old_data n) = canonTiers (tiersAt new_data n) then none
  else if diffDetails (tiersAt old_data n) (tiersAt new_data n) = [] then none
  else some (ChangeRecord.modified_trainer n
    (String.intercalate "; " (diffDetails (tiersAt old_data n) (tiersAt new_data n))))

/-- The `details` string of a `new_trainer` record
(`"{} tiers, {} topics".format(...)`). -/
def newDetails (tiers : Tiers) : String :=
  toString tiers.length ++ " tiers, " ++ toString (topicCount tiers) ++ " topics"

/-- The first loop of `compare_data`: one `new_trainer` record per
identifier only in `new_data`, sorted. -/
def newRecsOf (old_data new_data : Dataset) : List ChangeRecord :=
  (sortB strLe ((keysOf new_data).filter (fun n => !((keysOf old_data).contains n)))).map
    (fun n => ChangeRecord.new_trainer n (newDetails (tiersAt new_data n)))

/-- The second loop of `compare_data`: one `removed_trainer` record per
identifier only in `old_data`, sorted. -/
def remRecsOf (old_data new_data : Dataset) : List ChangeRecord :=
  (sortB strLe ((keysOf old_data).filter (fun n => !((keysOf new_data).contains n)))).map
    ChangeRecord.removed_trainer

/-- The third loop of `compare_data`: modified-trainer records over the
sorted common identifiers. -/
def modRecsOf (old_data new_data : Dataset) : List ChangeRecord :=
  (sortB strLe ((keysOf old_data).filter (fun n => (keysOf new_data).contains n))).filterMap
    (modRecordFor old_data new_data)

/-- Embedding of `compare_data(old_data, new_data)`: new trainers (sorted),
then removed trainers (sorted), then modified trainers (sorted). -/
def compare_data (old_data new_data : Dataset) : List ChangeRecord :=
  newRecsOf old_data new_data ++ remRecsOf old_data new_data ++ modRecsOf old_data new_data

/-- The identifier carried by a change record. -/
def trainerOf : ChangeRecord → String
  | .new_trainer n _ => n
  | .removed_trainer n => n
  | .modified_trainer n _ => n

/-- Whether a change record is a modified-trainer record. -/
def isModifiedRec : ChangeRecord → Bool
  | .modified_trainer _ _ => true
  | _ => false

/-- Whether some record in the list carries the given identifier. -/
def mentions (rs : List ChangeRecord) (n : String) : Bool :=
  rs.any (fun r => trainerOf r == n)

/-- Whether some record in the list is a modified-trainer record. -/
def hasModified (rs : List ChangeRecord) : Bool :=
  rs.any isModifiedRec

/-- One entry of the changelog history (`changelog["updates"][i]`). -/
structure ChangelogEntry where
  date : String
  trainer_count : Nat
  change_count : Nat
  changes : List ChangeRecord
deriving DecidableEq, Repr

/-- Embedding of the changelog update in `save_data`: when `changes` is
non-empty, prepend a new entry and keep only the first 50; otherwise the
list is written back unchanged. -/
def saveChangelogUpdates (updates : List ChangelogEntry) (date : String)
    (tcount : Nat) (changes : List ChangeRecord) : List ChangelogEntry :=
  if changes = [] then updates
  else (ChangelogEntry.mk date tcount changes.length changes :: updates).take 50

/-- One run's changelog effect, for iterating `save_data` over successive
runs: the run is given by its date, trainer count and change list. -/
def runStep (us : List ChangelogEntry) (r : String × Nat × List ChangeRecord) :
    List ChangelogEntry :=
  saveChangelogUpdates us r.1 r.2.1 r.2.2

/-- Python-set equality of two string lists (`set(a) == set(b)`). -/
def sameSet (a b : List String) : Prop :=
  (a.all (fun x => b.contains x) && b.all (fun x => a.contains x)) = true

instance (a b : List String) : Decidable (sameSet a b) :=
  inferInstanceAs (Decidable
    ((a.all (fun x => b.contains x) && b.all (fun x => a.contains x)) = true))

/-! ### Wikitext parser embedding -/

/-- Opening curly brace character (written by code point to keep brace
characters out of string literals). -/
def lbrace : Char := Char.ofNat 123

/-- Closing curly brace character. -/
def rbrace : Char := Char.ofNat 125

/-- Python `\s` / `str.strip` whitespace (ASCII part): space, tab, newline,
carriage return, vertical tab, form feed. -/
def isSpaceChar (c : Char) : Bool :=
  c = ' ' || c = '\t' || c = '\n' || c = '\r' || c = Char.ofNat 11 || c = Char.ofNat 12

/-- Python `str.strip()` on a character list. -/
def trimL (l : List Char) : List Char :=
  ((l.dropWhile isSpaceChar).reverse.dropWhile isSpaceChar).reverse

/-- Substring test helper: does `pat` occur starting at some position of `s`? -/
def strContainsAux (pat : List Char) : List Char → Bool
  | [] => pat.isEmpty
  | c :: cs => pat.isPrefixOf (c :: cs) || strContainsAux pat cs

/-- Python `pat in s` substring containment on character lists. -/
def strContainsL (s pat : List Char) : Bool := strContainsAux pat s

/-- Python `s.split("\n")` on a character list (keeps empty pieces). -/
def splitLines : List Char → List (List Char)
  | [] => [[]]
  | c :: cs =>
    if c = '\n' then [] :: splitLines cs
    else
      match splitLines cs with
      | [] => [[c]]
      | l :: ls => (c :: l) :: ls

/-- Python `s.split("||")` on a character list: left-to-right,
non-overlapping split on the two-character separator. -/
def splitSep2 : List Char → List (List Char)
  | '|' :: '|' :: rest => [] :: splitSep2 rest
  | c :: rest =>
    match splitSep2 rest with
    | [] => [[c]]
    | l :: ls => (c :: l) :: ls
  | [] => [[]]

/-- Consume a literal prefix, or fail (regex literal matching). -/
def dropLit (p l : List Char) : Option (List Char) :=
  if p.isPrefixOf l then some (l.drop p.length) else none

/-- Consume `\s*` greedily (safe here: every following regex atom starts
with a non-whitespace character, so greedy matching never backtracks). -/
def dropWs (l : List Char) : List Char := l.dropWhile isSpaceChar

/-- Dict assignment `d[k] = v`: replace in place if the key exists,
else append at the end (Python dict insertion-order semantics). -/
def dictSet {α : Type} : List (String × α) → String → α → List (String × α)
  | [], k, v => [(k, v)]
  | (k', v') :: tl, k, v =>
    if k' = k then (k, v) :: tl else (k', v') :: dictSet tl k v

/-- `d[k].append` of several items: `none` models the `KeyError` Python
would raise if the key were absent (unreachable from parser states,
which theorem C1 establishes). -/
def dictAppendO : Cats → String → List String → Option Cats
  | [], _, _ => none
  | (k', v') :: tl, k, ts =>
    if k' = k then some ((k', v' ++ ts) :: tl)
    else (dictAppendO tl k ts).map (fun tl' => (k', v') :: tl')

/-- The category-header regex `!colspan=["\']?\d+["\']?\|(.+)` applied with
`re.match` (anchored): on success returns the captured trailing text.
The pattern is backtracking-free: each optional quote is either taken or
leads to the same failure. -/
def catHeaderName (line : List Char) : Option (List Char) :=
  match dropLit "!colspan=".data line with
  | none => none
  | some l1 =>
    let l2 := match l1 with
      | c :: cs => if c = '"' || c = Char.ofNat 39 then cs else l1
      | [] => l1
    match l2 with
    | c :: cs =>
      if c.isDigit then
        let l3 := cs.dropWhile Char.isDigit
        let l4 := match l3 with
          | c' :: cs' => if c' = '"' || c' = Char.ofNat 39 then cs' else l3
          | [] => l3
        match l4 with
        | '|' :: rest => if rest = [] then none else some rest
        | _ => none
      else none
    | [] => none

/-- The skip test of `parse_tier_content`'s loop:
`not line or line == "|-" or line == "|}" or line.startswith("{|")`. -/
def skipLine (l : List Char) : Bool :=
  l.isEmpty || l == ['|', '-'] || l == ['|', rbrace] || [lbrace, '|'].isPrefixOf l

/-- The stripped, non-empty pieces of an entry line containing `||`
(the `for t in raw.split("||")` loop). -/
def splitPieces (raw : List Char) : List String :=
  (((splitSep2 raw).map trimL).filter (fun t => !t.isEmpty)).map String.mk

/-- Parser state of `parse_tier_content`'s loop: the accumulated category
dict and the active category name (`None` before any header). -/
abbrev PState := Cats × Option String

/-- The category name for a matched header with captured text `rest`:
stripped, and normalized to `"Pokemon"` when it contains `"Pok"`. -/
def catName (rest : List Char) : String :=
  if strContainsL (trimL rest) "Pok".data then "Pokemon" else String.mk (trimL rest)

/-- One iteration of `parse_tier_content`'s line loop. `none` models a
raised exception (only the unreachable `KeyError` of `dictAppendO`). -/
def processLine (st : PState) (rawLine : List Char) : Option PState :=
  let line := trimL rawLine
  if skipLine line then some st
  else
    match catHeaderName line with
    | some rest =>
      let c := catName rest
      some (dictSet st.1 c [], some c)
    | none =>
      match st.2 with
      | some cat =>
        if !(cat == "") && ['|'].isPrefixOf line && !([lbrace, '|'].isPrefixOf line) then
          let raw := trimL (line.drop 1)
          if raw.isEmpty || "class=".data.isPrefixOf raw || "style=".data.isPrefixOf raw then
            some st
          else if strContainsL raw ['|', '|'] then
            match dictAppendO st.1 cat (splitPieces raw) with
            | some d => some (d, some cat)
            | none => none
          else
            match dictAppendO st.1 cat [String.mk raw] with
            | some d => some (d, some cat)
            | none => none
        else some st
      | none => some st

/-- Embedding of `parse_tier_content(content)`: fold the line loop over the
split lines; `none` models a raised exception. -/
def parse_tier_content (content : List Char) : Option Cats :=
  ((splitLines content).foldlM processLine ([], none)).map Prod.fst

/-- Match the tier-header regex `===\s*(Interesting|Exciting|Super Exciting)\s*===`
at the head of `l`; alternatives tried in the pattern's order (their first
characters differ, so ordered choice equals regex backtracking). -/
def matchAlt (l : List Char) : Option (String × List Char) :=
  match dropLit "Interesting".data l with
  | some r => some ("Interesting", r)
  | none =>
    match dropLit "Exciting".data l with
    | some r => some ("Exciting", r)
    | none =>
      match dropLit "Super Exciting".data l with
      | some r => some ("Super Exciting", r)
      | none => none

/-- Match the full tier-header regex at the head of `l`; on success return
the tier name and the suffix after the match end. -/
def matchTier (l : List Char) : Option (String × List Char) :=
  match dropLit "===".data l with
  | none => none
  | some l1 =>
    match matchAlt (dropWs l1) with
    | none => none
    | some (n, l3) =>
      match dropLit "===".data (dropWs l3) with
      | none => none
      | some l5 => some (n, l5)

theorem dropLit_length_le (p l r : List Char) (h : dropLit p l = some r) :
    r.length ≤ l.length := by
  unfold dropLit at h
  split at h
  · cases h
    simp
  · cases h

theorem dropLit_length_lt (p l r : List Char) (hp : p ≠ [])
    (h : dropLit p l = some r) : r.length < l.length := by
  unfold dropLit at h
  split at h
  case isTrue hpre =>
    cases h
    have hle : p.length ≤ l.length := (List.IsPrefix.length_le (List.isPrefixOf_iff_prefix.mp hpre))
    have hpos : 0 < p.length := List.length_pos.mpr hp
    simp only [List.length_drop]
    omega
  · cases h

theorem dropWs_length_le (l : List Char) : (dropWs l).length ≤ l.length := by
  unfold dropWs
  exact (List.dropWhile_sublist _).length_le

theorem matchAlt_length_le (l : List Char) (n : String) (r : List Char)
    (h : matchAlt l = some (n, r)) : r.length ≤ l.length := by
  unfold matchAlt at h
  split at h
  case h_1 r1 h1 =>
    cases h
    exact dropLit_length_le _ _ _ h1
  case h_2 =>
    split at h
    case h_1 r2 h2 =>
      cases h
      exact dropLit_length_le _ _ _ h2
    case h_2 =>
      split at h
      case h_1 r3 h3 =>
        cases h
        exact dropLit_length_le _ _ _ h3
      case h_2 => cases h

theorem matchTier_length_lt (l : List Char) (n : String) (r : List Char)
    (h : matchTier l = some (n, r)) : r.length < l.length := by
  unfold matchTier at h
  split at h
  · cases h
  case h_2 l1 h1 =>
    split at h
    · cases h
    case h_2 nm l3 h3 =>
      split at h
      · cases h
      case h_2 l5 h5 =>
        cases h
        have e1 : l1.length < l.length := dropLit_length_lt _ _ _ (by decide) h1
        have e2 : l3.length ≤ (dropWs l1).length := matchAlt_length_le _ _ _ h3
        have e3 : r.length ≤ (dropWs l3).length := dropLit_length_le _ _ _ h5
        have e4 := dropWs_length_le l1
        have e5 := dropWs_length_le l3
        omega

/-- Fuelled scan underlying `scanTiers`; the fuel only serves structural
termination and never runs out when it exceeds the list length (each step
advances by at least one character, see `matchTier_length_lt` and
`scanTiersF_congr`). -/
def scanTiersF : Nat → List Char → List (String × List Char × List Char)
  | 0, _ => []
  | fuel + 1, l =>
    match matchTier l with
    | some (n, rest) => (n, l, rest) :: scanTiersF fuel rest
    | none =>
      match l with
      | [] => []
      | _ :: cs => scanTiersF fuel cs

theorem scanTiersF_congr : ∀ (f₁ : Nat), ∀ (f₂ : Nat) (l : List Char),
    l.length < f₁ → l.length < f₂ → scanTiersF f₁ l = scanTiersF f₂ l := by
  intro f₁
  induction f₁ with
  | zero => intro f₂ l h1 _; omega
  | succ n ih =>
    intro f₂ l h1 h2
    cases f₂ with
    | zero => omega
    | succ m =>
      simp only [scanTiersF]
      cases hm : matchTier l with
      | some p =>
        obtain ⟨nm, rest⟩ := p
        have hlt := matchTier_length_lt _ _ _ hm
        simp only [ih m rest (by omega) (by omega)]
      | none =>
        cases l with
        | nil => rfl
        | cons c cs =>
          simp only [ih m cs (by simp at h1 ⊢; omega) (by simp at h2 ⊢; omega)]

/-- Embedding of `finditer` over the tier-header pattern: scan left to
right; at a match, record (tier name, suffix at match start, suffix after
match end) and continue from the match end. -/
def scanTiers (l : List Char) : List (String × List Char × List Char) :=
  scanTiersF (l.length + 1) l

/-- Does the terminal regex `==\s*Scrapbook` match at the head of `l`? -/
def scrapHere (l : List Char) : Bool :=
  match dropLit "==".data l with
  | some l1 => "Scrapbook".data.isPrefixOf (dropWs l1)
  | none => false

/-- Embedding of `re.search(r"==\s*Scrapbook", rest)`: the length of the
suffix at the leftmost match position, or `none` if no match. -/
def findScrapLen : List Char → Option Nat
  | [] => none
  | c :: cs => if scrapHere (c :: cs) then some (cs.length + 1) else findScrapLen cs

/-- The content slice of the last tier section: up to the Scrapbook header
if present, else to end of document. -/
def sliceToScrapbook (rest : List Char) : List Char :=
  match findScrapLen rest with
  | some n => rest.take (rest.length - n)
  | none => rest

/-- Turn the scanned tier matches into (tier name, content slice) pairs:
each section's content runs to the start of the next match, the last
section's to the Scrapbook header or end of document. -/
def contentsOf : List (String × List Char × List Char) → List (String × List Char)
  | [] => []
  | [(n, _, rest)] => [(n, sliceToScrapbook rest)]
  | (n, _, rest) :: (m, s2, r2) :: tl =>
    (n, rest.take (rest.length - s2.length)) :: contentsOf ((m, s2, r2) :: tl)

/-- One iteration of `parse_wikitext`'s tier loop: parse the section
content and record it under the tier name only when non-empty. -/
def tierStep (acc : Tiers) (p : String × List Char) : Option Tiers :=
  match parse_tier_content p.2 with
  | none => none
  | some cats => if cats = [] then some acc else some (dictSet acc p.1 cats)

/-- Embedding of `parse_wikitext(wikitext, trainer_name)`; `none` models a
raised exception (theorem C1 shows it never occurs). -/
def parse_wikitext (wikitext : String) (trainer_name : String) : Option Trainer :=
  ((contentsOf (scanTiers wikitext.data)).foldlM tierStep []).map
    (fun tiers => ⟨trainer_name, tiers⟩)

end Lodge

namespace Lodge

/-! ### Basic lemmas -/

theorem mem_insertB {α : Type} (le : α → α → Bool) (x : α) (l : List α) (y : α) :
    y ∈ insertB le x l ↔ y = x ∨ y ∈ l := by
  induction l with
  | nil => simp [insertB]
  | cons z zs ih =>
    by_cases h : le x z = true
    · simp [insertB, h]
    · simp [insertB, h, ih]
      tauto

theorem mem_sortB {α : Type} (le : α → α → Bool) (l : List α) (y : α) :
    y ∈ sortB le l ↔ y ∈ l := by
  induction l with
  | nil => simp [sortB]
  | cons z zs ih =>
    simp [sortB, mem_insertB, ih]

theorem contains_iff_mem (l : List String) (x : String) :
    l.contains x = true ↔ x ∈ l := by
  simp

/-! ### Parser totality: the line-loop invariant -/

/-- Invariant of the `parse_tier_content` loop state: the active category,
when set, is a key of the accumulated dict (so `categories[current_category]`
cannot raise `KeyError`). -/
def Inv (st : PState) : Prop := ∀ c, st.2 = some c → ∃ v, aget st.1 c = some v

theorem aget_dictSet_self {α : Type} (d : List (String × α)) (k : String) (v : α) :
    aget (dictSet d k v) k = some v := by
  induction d with
  | nil => simp [dictSet, aget]
  | cons p tl ih =>
    obtain ⟨k', v'⟩ := p
    by_cases h : k' = k
    · simp [dictSet, h, aget]
    · simp [dictSet, h, aget, ih]

theorem dictAppendO_some (d : Cats) (k : String) (v ts : List String)
    (h : aget d k = some v) :
    ∃ d', dictAppendO d k ts = some d' ∧ aget d' k = some (v ++ ts) := by
  induction d with
  | nil => simp [aget] at h
  | cons p tl ih =>
    obtain ⟨k', v'⟩ := p
    by_cases hk : k' = k
    · have hv : v' = v := by simpa [aget, hk] using h
      refine ⟨(k', v' ++ ts) :: tl, ?_, ?_⟩
      · simp [dictAppendO, hk]
      · simp [aget, hk, hv]
    · simp only [aget, if_neg hk] at h
      obtain ⟨d', hd', ha⟩ := ih h
      refine ⟨(k', v') :: d', ?_, ?_⟩
      · simp [dictAppendO, hk, hd']
      · simp [aget, hk, ha]

theorem processLine_some (st : PState) (line : List Char) (hInv : Inv st) :
    ∃ st', processLine st line = some st' ∧ Inv st' := by
  cases hskip : skipLine (trimL line) with
  | true => exact ⟨st, by simp [processLine, hskip], hInv⟩
  | false =>
    cases hcat : catHeaderName (trimL line) with
    | some rest =>
      refine ⟨(dictSet st.1 (catName rest) [], some (catName rest)), ?_, ?_⟩
      · simp [processLine, hskip, hcat]
      · intro c'' hc
        cases hc
        exact ⟨[], aget_dictSet_self _ _ _⟩
    | none =>
      obtain ⟨cats, cur⟩ := st
      cases hcur : cur with
      | none =>
        exact ⟨(cats, none), by simp [processLine, hskip, hcat], by intro c hc; cases hc⟩
      | some cat =>
        obtain ⟨v, hv⟩ := hInv cat (by rw [hcur])
        by_cases hcond : (!(cat == "") && ['|'].isPrefixOf (trimL line)
            && !([lbrace, '|'].isPrefixOf (trimL line))) = true
        · by_cases hraw : ((trimL ((trimL line).tail)).isEmpty
              || "class=".data.isPrefixOf (trimL ((trimL line).tail))
              || "style=".data.isPrefixOf (trimL ((trimL line).tail))) = true
          · refine ⟨(cats, some cat), ?_, ?_⟩
            · simp [processLine, hskip, hcat, hcond, hraw]
            · intro c hc
              cases hc
              exact ⟨v, hv⟩
          · by_cases hsep : strContainsL (trimL ((trimL line).tail)) ['|', '|'] = true
            · obtain ⟨d', hd', ha⟩ :=
                dictAppendO_some cats cat v (splitPieces (trimL ((trimL line).tail))) hv
              refine ⟨(d', some cat), ?_, ?_⟩
              · simp [processLine, hskip, hcat, hcond, hraw, hsep, hd']
              · intro c hc
                cases hc
                exact ⟨_, ha⟩
            · obtain ⟨d', hd', ha⟩ :=
                dictAppendO_some cats cat v [String.mk (trimL ((trimL line).tail))] hv
              refine ⟨(d', some cat), ?_, ?_⟩
              · simp [processLine, hskip, hcat, hcond, hraw, hsep, hd']
              · intro c hc
                cases hc
                exact ⟨_, ha⟩
        · refine ⟨(cats, some cat), ?_, ?_⟩
          · simp [processLine, hskip, hcat, hcond]
          · intro c hc
            cases hc
            exact ⟨v, hv⟩

theorem foldlM_processLine_some (lines : List (List Char)) :
    ∀ st, Inv st → ∃ st', lines.foldlM processLine st = some st' ∧ Inv st' := by
  induction lines with
  | nil => exact fun st h => ⟨st, by simp, h⟩
  | cons l ls ih =>
    intro st h
    obtain ⟨st1, h1, hInv1⟩ := processLine_some st l h
    obtain ⟨st2, h2, hInv2⟩ := ih st1 hInv1
    exact ⟨st2, by simp [h1, h2], hInv2⟩

theorem parse_tier_content_some (content : List Char) :
    ∃ cats, parse_tier_content content = some cats := by
  obtain ⟨st', h', _⟩ :=
    foldlM_processLine_some (splitLines content) ([], none) (by intro c hc; cases hc)
  exact ⟨st'.1, by simp [parse_tier_content, h']⟩

theorem foldlM_tierStep_some (slices : List (String × List Char)) :
    ∀ acc, ∃ t, slices.foldlM tierStep acc = some t := by
  induction slices with
  | nil => exact fun acc => ⟨acc, by simp⟩
  | cons p ps ih =>
    intro acc
    obtain ⟨cats, hcats⟩ := parse_tier_content_some p.2
    by_cases hnil : cats = []
    · obtain ⟨t, ht⟩ := ih acc
      exact ⟨t, by simp [tierStep, hcats, hnil, ht]⟩
    · obtain ⟨t, ht⟩ := ih (dictSet acc p.1 cats)
      exact ⟨t, by simp [tierStep, hcats, hnil, ht]⟩

/-! ### Changelog lemmas -/

theorem runStep_length (us : List ChangelogEntry)
    (r : String × Nat × List ChangeRecord) (h : r.2.2 ≠ []) :
    (runStep us r).length = min (us.length + 1) 50 := by
  simp only [runStep, saveChangelogUpdates, if_neg h, List.length_take,
    List.length_cons]
  omega

theorem foldl_runStep_length (rs : List (String × Nat × List ChangeRecord)) :
    ∀ us : List ChangelogEntry, us.length ≤ 50 → (∀ x ∈ rs, x.2.2 ≠ []) →
      (rs.foldl runStep us).length = min (us.length + rs.length) 50 := by
  induction rs with
  | nil =>
    intro us h _
    simp
    omega
  | cons r rs ih =>
    intro us h hall
    have hr : r.2.2 ≠ [] := hall r (by simp)
    have h1 : (runStep us r).length = min (us.length + 1) 50 := runStep_length us r hr
    rw [List.foldl_cons, ih (runStep us r) (by omega) (fun x hx => hall x (by simp [hx]))]
    rw [h1]
    simp only [List.length_cons]
    omega

/-! ### Set-diff lemmas for the change detector -/

theorem sameSet_mem {a b : List String} (h : sameSet a b) (x : String) :
    x ∈ a ↔ x ∈ b := by
  unfold sameSet at h
  rw [Bool.and_eq_true] at h
  obtain ⟨h1, h2⟩ := h
  rw [List.all_eq_true] at h1 h2
  constructor
  · intro hx
    exact (contains_iff_mem _ _).mp (h1 x hx)
  · intro hx
    exact (contains_iff_mem _ _).mp (h2 x hx)

theorem diffDetails_nil (ot nt : Tiers)
    (h : ∀ t ∈ ot.map Prod.fst ++ nt.map Prod.fst,
         ∀ c ∈ catKeys ot t ++ catKeys nt t,
         sameSet (topicsAt ot t c) (topicsAt nt t c)) :
    diffDetails ot nt = [] := by
  simp only [catKeys, topicsAt] at h
  simp only [diffDetails]
  rw [List.flatMap_eq_nil_iff]
  intro t ht
  rw [mem_sortB, List.mem_dedup] at ht
  rw [List.flatMap_eq_nil_iff]
  intro c hc
  rw [mem_sortB, List.mem_dedup] at hc
  have hs := h t ht c hc
  have hadd : ((aget ((aget nt t).getD []) c).getD []).dedup.filter
      (fun x => !decide (x ∈ (aget ((aget ot t).getD []) c).getD [])) = [] := by
    rw [List.filter_eq_nil_iff]
    intro x hx
    rw [List.mem_dedup] at hx
    have hmem : x ∈ (aget ((aget ot t).getD []) c).getD [] := (sameSet_mem hs x).mpr hx
    simp [hmem]
  have hrem : ((aget ((aget ot t).getD []) c).getD []).dedup.filter
      (fun x => !decide (x ∈ (aget ((aget nt t).getD []) c).getD [])) = [] := by
    rw [List.filter_eq_nil_iff]
    intro x hx
    rw [List.mem_dedup] at hx
    have hmem : x ∈ (aget ((aget nt t).getD []) c).getD [] := (sameSet_mem hs x).mp hx
    simp [hmem]
  simp [hadd, hrem, sortB]

theorem modRecordFor_none (old_data new_data : Dataset) (n : String)
    (hdet : diffDetails (tiersAt old_data n) (tiersAt new_data n) = []) :
    modRecordFor old_data new_data n = none := by
  unfold modRecordFor
  split
  · rfl
  · simp [hdet]

theorem modRecordFor_trainer (old_data new_data : Dataset) (n : String)
    (r : ChangeRecord) (h : modRecordFor old_data new_data n = some r) :
    trainerOf r = n := by
  unfold modRecordFor at h
  split at h
  · cases h
  · split at h
    · cases h
    · cases h
      rfl

theorem no_mention_of_unchanged (old_data new_data : Dataset) (name : String)
    (h1 : name ∈ keysOf old_data) (h2 : name ∈ keysOf new_data)
    (hdet : diffDetails (tiersAt old_data name) (tiersAt new_data name) = []) :
    mentions (compare_data old_data new_data) name = false := by
  unfold mentions
  rw [List.any_eq_false]
  intro r hr
  simp only [compare_data, List.mem_append] at hr
  rcases hr with (hr | hr) | hr
  · simp only [newRecsOf, List.mem_map] at hr
    obtain ⟨n, hn, rfl⟩ := hr
    rw [mem_sortB, List.mem_filter] at hn
    obtain ⟨_, hnotold⟩ := hn
    intro hbeq
    rw [beq_iff_eq] at hbeq
    simp only [trainerOf] at hbeq
    subst hbeq
    simp at hnotold
    exact hnotold h1
  · simp only [remRecsOf, List.mem_map] at hr
    obtain ⟨n, hn, rfl⟩ := hr
    rw [mem_sortB, List.mem_filter] at hn
    obtain ⟨_, hnotnew⟩ := hn
    intro hbeq
    rw [beq_iff_eq] at hbeq
    simp only [trainerOf] at hbeq
    subst hbeq
    simp at hnotnew
    exact hnotnew h2
  · simp only [modRecsOf, List.mem_filterMap] at hr
    obtain ⟨n, hn, hmod⟩ := hr
    intro hbeq
    rw [beq_iff_eq, modRecordFor_trainer _ _ _ _ hmod] at hbeq
    subst hbeq
    rw [modRecordFor_none _ _ _ hdet] at hmod
    cases hmod

/-! ### Line-classification helper lemmas -/

theorem isPrefixOf_head {l t : List Char} {a : Char}
    (h : (a :: t).isPrefixOf l = true) : l.head? = some a := by
  cases l with
  | nil => simp [List.isPrefixOf] at h
  | cons b bs =>
    simp only [List.isPrefixOf, Bool.and_eq_true, beq_iff_eq] at h
    simp [h.1]

theorem catHeaderName_colspanHead {l r : List Char} (h : catHeaderName l = some r) :
    "!colspan=".data.isPrefixOf l = true := by
  unfold catHeaderName at h
  unfold dropLit at h
  by_cases hp : "!colspan=".data.isPrefixOf l = true
  · exact hp
  · simp [hp] at h

theorem catHeaderName_none_of_head {l : List Char} {c : Char}
    (hh : l.head? = some c) (hc : c ≠ '!') : catHeaderName l = none := by
  cases hcat : catHeaderName l with
  | none => rfl
  | some r =>
    have := isPrefixOf_head (l := l) (t := "colspan=".data) (catHeaderName_colspanHead hcat)
    rw [hh] at this
    cases this
    exact absurd rfl hc

theorem skipLine_false_of_head {l : List Char} {c : Char} (hh : l.head? = some c)
    (h1 : l ≠ ['|', '-']) (h2 : l ≠ ['|', rbrace]) (h3 : c ≠ lbrace) :
    skipLine l = false := by
  cases l with
  | nil => cases hh
  | cons a as =>
    simp only [List.head?, Option.some.injEq] at hh
    subst hh
    have e1 : ((a :: as) == ['|', '-']) = false := by
      rw [beq_eq_false_iff_ne]
      exact h1
    have e2 : ((a :: as) == ['|', rbrace]) = false := by
      rw [beq_eq_false_iff_ne]
      exact h2
    have e3 : ([lbrace, '|'].isPrefixOf (a :: as)) = false := by
      simp only [List.isPrefixOf, Bool.and_eq_false_iff]
      left
      rw [beq_eq_false_iff_ne]
      exact fun e => h3 e.symm
    simp [skipLine, e1, e2, e3]

end Lodge

/-- C2: `compare_data(D, D)` returns the empty change list for every dataset `D`. -/
theorem c2_diff_self_empty (D : Lodge.Dataset) : Lodge.compare_data D D = [] := by
  have hfilter : ∀ l : List String, l.filter (fun n => !decide (n ∈ l)) = [] := by
    intro l
    apply List.filter_eq_nil_iff.mpr
    intro a ha
    simp [ha]
  have hnew : Lodge.newRecsOf D D = [] := by
    simp [Lodge.newRecsOf, hfilter, Lodge.sortB]
  have hrem : Lodge.remRecsOf D D = [] := by
    simp [Lodge.remRecsOf, hfilter, Lodge.sortB]
  have hmod : Lodge.modRecsOf D D = [] := by
    simp only [Lodge.modRecsOf]
    rw [List.filterMap_eq_nil_iff]
    intro n _
    simp [Lodge.modRecordFor]
  simp [Lodge.compare_data, hnew, hrem, hmod]

/-- C3: on the one-trainer datasets where the new side adds topic "Y" to
tier "Interesting", category "Pokemon", `compare_data` yields exactly one
modified-trainer record for "A" with detail `+[Interesting/Pokemon]: Y`. -/
theorem c3_single_topic_added :
    Lodge.compare_data
      [("A", ⟨"A", [("Interesting", [("Pokemon", ["X"])])]⟩)]
      [("A", ⟨"A", [("Interesting", [("Pokemon", ["X", "Y"])])]⟩)]
      = [Lodge.ChangeRecord.modified_trainer "A" "+[Interesting/Pokemon]: Y"] := by
  decide

/-- C1: for every markup string and identifier, `parse_wikitext` returns a
record (never an exception) whose name is the identifier; and a line that
matches no category header and does not start with the entry marker leaves
the parser state unchanged (malformed lines are silently skipped). -/
theorem c1_parse_never_fails :
    (∀ (w id : String), ∃ tiers, Lodge.parse_wikitext w id = some ⟨id, tiers⟩) ∧
    (∀ (st : Lodge.PState) (line : List Char),
      Lodge.catHeaderName (Lodge.trimL line) = none →
      (Lodge.trimL line).head? ≠ some '|' →
      Lodge.processLine st line = some st) := by
  constructor
  · intro w id
    obtain ⟨t, ht⟩ := Lodge.foldlM_tierStep_some (Lodge.contentsOf (Lodge.scanTiers w.data)) []
    exact ⟨t, by simp [Lodge.parse_wikitext, ht]⟩
  · intro st line hcat hhead
    cases hskip : Lodge.skipLine (Lodge.trimL line) with
    | true => simp [Lodge.processLine, hskip]
    | false =>
      have hpre : (['|'].isPrefixOf (Lodge.trimL line)) = false := by
        cases hl : Lodge.trimL line with
        | nil => rfl
        | cons a as =>
          simp only [List.isPrefixOf, Bool.and_eq_false_iff]
          left
          rw [beq_eq_false_iff_ne]
          intro e
          apply hhead
          rw [hl, ← e]
          rfl
      obtain ⟨cats, cur⟩ := st
      cases cur with
      | none => simp [Lodge.processLine, hskip, hcat]
      | some cat => simp [Lodge.processLine, hskip, hcat, hpre]

/-- Witness for C1 at concrete inputs. -/
theorem c1_witness :
    (∃ tiers,
      Lodge.parse_wikitext "=== Interesting ===\n!colspan=\"2\"|Music\n|Alpha" "Dawn"
        = some ⟨"Dawn", tiers⟩) ∧
    Lodge.processLine ([], none) "hello".data = some ([], none) :=
  ⟨c1_parse_never_fails.1 _ _,
   c1_parse_never_fails.2 ([], none) "hello".data (by decide) (by decide)⟩

/-- C6: under an active category, the line `|Alpha||Beta||Gamma` appends
exactly the entries `Alpha`, `Beta`, `Gamma` in order; generally, an entry
line containing `||` appends each non-empty stripped piece in order. -/
theorem c6_entry_line_splitting :
    (∀ (cats : Lodge.Cats) (cat : String) (prev : List String),
      cat ≠ "" → Lodge.aget cats cat = some prev →
      ∃ cats', Lodge.processLine (cats, some cat) "|Alpha||Beta||Gamma".data
          = some (cats', some cat) ∧
        Lodge.aget cats' cat = some (prev ++ ["Alpha", "Beta", "Gamma"])) ∧
    (∀ (cats : Lodge.Cats) (cat : String) (prev : List String) (rawLine : List Char),
      cat ≠ "" → Lodge.aget cats cat = some prev →
      (Lodge.trimL rawLine).head? = some '|' →
      Lodge.trimL rawLine ≠ ['|', '-'] →
      Lodge.trimL rawLine ≠ ['|', Lodge.rbrace] →
      Lodge.trimL ((Lodge.trimL rawLine).tail) ≠ [] →
      "class=".data.isPrefixOf (Lodge.trimL ((Lodge.trimL rawLine).tail)) = false →
      "style=".data.isPrefixOf (Lodge.trimL ((Lodge.trimL rawLine).tail)) = false →
      Lodge.strContainsL (Lodge.trimL ((Lodge.trimL rawLine).tail)) ['|', '|'] = true →
      ∃ cats', Lodge.processLine (cats, some cat) rawLine = some (cats', some cat) ∧
        Lodge.aget cats' cat
          = some (prev ++ Lodge.splitPieces (Lodge.trimL ((Lodge.trimL rawLine).tail)))) := by
  have hgen : ∀ (cats : Lodge.Cats) (cat : String) (prev : List String) (rawLine : List Char),
      cat ≠ "" → Lodge.aget cats cat = some prev →
      (Lodge.trimL rawLine).head? = some '|' →
      Lodge.trimL rawLine ≠ ['|', '-'] →
      Lodge.trimL rawLine ≠ ['|', Lodge.rbrace] →
      Lodge.trimL ((Lodge.trimL rawLine).tail) ≠ [] →
      "class=".data.isPrefixOf (Lodge.trimL ((Lodge.trimL rawLine).tail)) = false →
      "style=".data.isPrefixOf (Lodge.trimL ((Lodge.trimL rawLine).tail)) = false →
      Lodge.strContainsL (Lodge.trimL ((Lodge.trimL rawLine).tail)) ['|', '|'] = true →
      ∃ cats', Lodge.processLine (cats, some cat) rawLine = some (cats', some cat) ∧
        Lodge.aget cats' cat
          = some (prev ++ Lodge.splitPieces (Lodge.trimL ((Lodge.trimL rawLine).tail))) := by
    intro cats cat prev rawLine hcat0 hprev hhead h1 h2 hne hcls hsty hsep
    have hskip : Lodge.skipLine (Lodge.trimL rawLine) = false :=
      Lodge.skipLine_false_of_head hhead h1 h2 (by decide)
    have hhdr : Lodge.catHeaderName (Lodge.trimL rawLine) = none :=
      Lodge.catHeaderName_none_of_head hhead (by decide)
    have hc0 : (cat == "") = false := by
      rw [beq_eq_false_iff_ne]
      exact hcat0
    have hpre : ['|'].isPrefixOf (Lodge.trimL rawLine) = true := by
      cases hl : Lodge.trimL rawLine with
      | nil => rw [hl] at hhead; cases hhead
      | cons a as =>
        rw [hl] at hhead
        simp only [List.head?, Option.some.injEq] at hhead
        simp [List.isPrefixOf, hhead]
    have hlb : ([Lodge.lbrace, '|'].isPrefixOf (Lodge.trimL rawLine)) = false := by
      cases hl : Lodge.trimL rawLine with
      | nil => rfl
      | cons a as =>
        rw [hl] at hhead
        simp only [List.head?, Option.some.injEq] at hhead
        simp only [List.isPrefixOf, Bool.and_eq_false_iff]
        left
        rw [beq_eq_false_iff_ne, hhead]
        decide
    have hemp : (Lodge.trimL ((Lodge.trimL rawLine).tail)).isEmpty = false := by
      cases hofl : Lodge.trimL ((Lodge.trimL rawLine).tail) with
      | nil => exact absurd hofl hne
      | cons a as => rfl
    obtain ⟨d', hd', ha⟩ := Lodge.dictAppendO_some cats cat prev
      (Lodge.splitPieces (Lodge.trimL ((Lodge.trimL rawLine).tail))) hprev
    refine ⟨d', ?_, ha⟩
    simp [Lodge.processLine, hskip, hhdr, hc0, hpre, hlb, hemp, hcls, hsty, hsep, hd']
  constructor
  · intro cats cat prev hcat0 hprev
    obtain ⟨cats', hrun, hget⟩ := hgen cats cat prev "|Alpha||Beta||Gamma".data hcat0 hprev
      (by decide) (by decide) (by decide) (by decide) (by decide) (by decide) (by decide)
    refine ⟨cats', hrun, ?_⟩
    have hsp : Lodge.splitPieces
        (Lodge.trimL ((Lodge.trimL "|Alpha||Beta||Gamma".data).tail))
        = ["Alpha", "Beta", "Gamma"] := by decide
    rw [hsp] at hget
    exact hget
  · exact hgen

/-- Witness for C6 at a concrete parser state. -/
theorem c6_witness :
    ∃ cats', Lodge.processLine ([("Topics", ["Z"])], some "Topics")
        "|Alpha||Beta||Gamma".data = some (cats', some "Topics") ∧
      Lodge.aget cats' "Topics" = some (["Z"] ++ ["Alpha", "Beta", "Gamma"]) :=
  c6_entry_line_splitting.1 [("Topics", ["Z"])] "Topics" ["Z"] (by decide) (by decide)

/-- C7: a category-header line whose stripped trailing label contains the
substring `Pok` makes the parser set the active category to the fixed key
`"Pokemon"` and reset that key's entry list. -/
theorem c7_pokemon_normalized :
    ∀ (st : Lodge.PState) (rawLine rest : List Char),
      Lodge.catHeaderName (Lodge.trimL rawLine) = some rest →
      Lodge.strContainsL (Lodge.trimL rest) "Pok".data = true →
      Lodge.processLine st rawLine
        = some (Lodge.dictSet st.1 "Pokemon" [], some "Pokemon") := by
  intro st rawLine rest hcat hpok
  have hh : (Lodge.trimL rawLine).head? = some '!' :=
    Lodge.isPrefixOf_head (Lodge.catHeaderName_colspanHead hcat)
  have hskip : Lodge.skipLine (Lodge.trimL rawLine) = false := by
    apply Lodge.skipLine_false_of_head hh ?_ ?_ (by decide)
    · intro e
      rw [e] at hh
      exact absurd hh (by decide)
    · intro e
      rw [e] at hh
      exact absurd hh (by decide)
  have hc : Lodge.catName rest = "Pokemon" := by
    simp [Lodge.catName, hpok]
  simp [Lodge.processLine, hskip, hcat, hc]

/-- Witness for C7 on a concrete header line with a variant spelling. -/
theorem c7_witness :
    Lodge.processLine ([("Old", ["Z"])], some "Old") "!colspan=\"2\"|Pokémon".data
      = some (Lodge.dictSet [("Old", ["Z"])] "Pokemon" [], some "Pokemon") :=
  c7_pokemon_normalized ([("Old", ["Z"])], some "Old") "!colspan=\"2\"|Pokémon".data
    "Pokémon".data (by decide) (by decide)

/-- C8: a matched section whose content yields zero categories is omitted
from the result (concretely, `=== Exciting ===` directly followed by
`== Scrapbook ==` produces no tier key), while a category whose header was
seen but which accumulated no entries is retained with an empty list. -/
theorem c8_empty_section_omitted :
    (Lodge.parse_wikitext "=== Exciting ===\n== Scrapbook ==" "A" = some ⟨"A", []⟩) ∧
    (∀ (acc : Lodge.Tiers) (name : String) (content : List Char),
      Lodge.parse_tier_content content = some [] →
      Lodge.tierStep acc (name, content) = some acc) ∧
    (Lodge.parse_tier_content "!colspan=\"2\"|Music".data = some [("Music", [])]) := by
  refine ⟨by decide, ?_, by decide⟩
  intro acc name content h
  simp [Lodge.tierStep, h]

/-- Witness for C8's middle conjunct on concrete inputs. -/
theorem c8_witness :
    Lodge.tierStep [("Interesting", [("Pokemon", ["X"])])] ("Exciting", "".data)
      = some [("Interesting", [("Pokemon", ["X"])])] :=
  c8_empty_section_omitted.2.1 [("Interesting", [("Pokemon", ["X"])])] "Exciting"
    "".data (by decide)

/-- C4: for an identifier present in both datasets whose records have the
same tier keys, the same category keys per tier, and set-equal entry lists
per category — so deep equality can fail only through entry ordering —
`compare_data` emits no change record for that identifier. -/
theorem c4_order_only_diff_invisible :
    ∀ (old_data new_data : Lodge.Dataset) (name : String),
      name ∈ Lodge.keysOf old_data → name ∈ Lodge.keysOf new_data →
      Lodge.sameSet ((Lodge.tiersAt old_data name).map Prod.fst)
        ((Lodge.tiersAt new_data name).map Prod.fst) →
      (∀ t ∈ (Lodge.tiersAt old_data name).map Prod.fst,
        Lodge.sameSet (Lodge.catKeys (Lodge.tiersAt old_data name) t)
          (Lodge.catKeys (Lodge.tiersAt new_data name) t)) →
      (∀ t ∈ (Lodge.tiersAt old_data name).map Prod.fst,
        ∀ c ∈ Lodge.catKeys (Lodge.tiersAt old_data name) t,
        Lodge.sameSet (Lodge.topicsAt (Lodge.tiersAt old_data name) t c)
          (Lodge.topicsAt (Lodge.tiersAt new_data name) t c)) →
      Lodge.canonTiers (Lodge.tiersAt old_data name)
        ≠ Lodge.canonTiers (Lodge.tiersAt new_data name) →
      Lodge.mentions (Lodge.compare_data old_data new_data) name = false := by
  intro old_data new_data name h1 h2 htier hcat htop _
  apply Lodge.no_mention_of_unchanged _ _ _ h1 h2
  apply Lodge.diffDetails_nil
  intro t ht c hc
  have ht' : t ∈ (Lodge.tiersAt old_data name).map Prod.fst := by
    rcases List.mem_append.mp ht with h | h
    · exact h
    · exact (Lodge.sameSet_mem htier t).mpr h
  have hc' : c ∈ Lodge.catKeys (Lodge.tiersAt old_data name) t := by
    rcases List.mem_append.mp hc with h | h
    · exact h
    · exact (Lodge.sameSet_mem (hcat t ht') c).mpr h
  exact htop t ht' c hc'

/-- Witness for C4: old entry list `["X","Y"]`, new entry list `["Y","X"]` —
deep equality fails (order), yet no change record mentions "A". -/
theorem c4_witness :
    Lodge.mentions (Lodge.compare_data
      [("A", ⟨"A", [("Interesting", [("Pokemon", ["X", "Y"])])]⟩)]
      [("A", ⟨"A", [("Interesting", [("Pokemon", ["Y", "X"])])]⟩)]) "A" = false :=
  c4_order_only_diff_invisible
    [("A", ⟨"A", [("Interesting", [("Pokemon", ["X", "Y"])])]⟩)]
    [("A", ⟨"A", [("Interesting", [("Pokemon", ["Y", "X"])])]⟩)]
    "A" (by decide) (by decide) (by decide) (by decide) (by decide) (by decide)

/-- C5: for a non-empty change list, `save_data`'s changelog update prepends
the new entry and truncates to 50; over 60 successive runs from an empty
history, each with at least one change, the final history has exactly 50
entries with the most recent run's entry first. -/
theorem c5_changelog_capped :
    ∀ (updates : List Lodge.ChangelogEntry) (date : String) (tcount : Nat)
      (changes : List Lodge.ChangeRecord)
      (rs : List (String × Nat × List Lodge.ChangeRecord))
      (r : String × Nat × List Lodge.ChangeRecord),
      changes ≠ [] → rs.length = 59 → (∀ x ∈ rs ++ [r], x.2.2 ≠ []) →
      (Lodge.saveChangelogUpdates updates date tcount changes
        = Lodge.ChangelogEntry.mk date tcount changes.length changes :: updates.take 49) ∧
      ((rs ++ [r]).foldl Lodge.runStep []).length = 50 ∧
      ((rs ++ [r]).foldl Lodge.runStep []).head?
        = some (Lodge.ChangelogEntry.mk r.1 r.2.1 r.2.2.length r.2.2) := by
  intro updates date tcount changes rs r hchanges hlen hall
  refine ⟨?_, ?_, ?_⟩
  · simp [Lodge.saveChangelogUpdates, hchanges]
  · rw [Lodge.foldl_runStep_length (rs ++ [r]) [] (by simp) hall]
    simp [hlen]
  · rw [List.foldl_append]
    have hr : r.2.2 ≠ [] := hall r (by simp)
    simp [Lodge.runStep, Lodge.saveChangelogUpdates, hr]

/-- Witness for C5: 60 runs of one removed-trainer change from an empty
history. -/
theorem c5_witness :
    (Lodge.saveChangelogUpdates [] "d" 1 [Lodge.ChangeRecord.removed_trainer "A"]
      = Lodge.ChangelogEntry.mk "d" 1 1 [Lodge.ChangeRecord.removed_trainer "A"]
        :: ([] : List Lodge.ChangelogEntry).take 49) ∧
    (((List.replicate 59 ("d", 1, [Lodge.ChangeRecord.removed_trainer "A"]))
        ++ [("d", 1, [Lodge.ChangeRecord.removed_trainer "A"])]).foldl
        Lodge.runStep []).length = 50 ∧
    (((List.replicate 59 ("d", 1, [Lodge.ChangeRecord.removed_trainer "A"]))
        ++ [("d", 1, [Lodge.ChangeRecord.removed_trainer "A"])]).foldl
        Lodge.runStep []).head?
      = some (Lodge.ChangelogEntry.mk "d" 1 1 [Lodge.ChangeRecord.removed_trainer "A"]) :=
  c5_changelog_capped [] "d" 1 [Lodge.ChangeRecord.removed_trainer "A"]
    (List.replicate 59 ("d", 1, [Lodge.ChangeRecord.removed_trainer "A"]))
    ("d", 1, [Lodge.ChangeRecord.removed_trainer "A"])
    (by simp) (by simp)
    (by
      intro x hx
      rcases List.mem_append.mp hx with h | h
      · rw [List.eq_of_mem_replicate h]
        simp
      · rw [List.mem_singleton.mp h]
        simp)

/-- C9: for an identifier present in both datasets, if every (tier,
category) pair has set-equal old and new entry lists — in particular when
they differ only in entry multiplicity — `compare_data` emits no change
record for that identifier. -/
theorem c9_multiplicity_invisible :
    ∀ (old_data new_data : Lodge.Dataset) (name : String),
      name ∈ Lodge.keysOf old_data → name ∈ Lodge.keysOf new_data →
      (∀ t ∈ (Lodge.tiersAt old_data name).map Prod.fst
            ++ (Lodge.tiersAt new_data name).map Prod.fst,
        ∀ c ∈ Lodge.catKeys (Lodge.tiersAt old_data name) t
            ++ Lodge.catKeys (Lodge.tiersAt new_data name) t,
        Lodge.sameSet (Lodge.topicsAt (Lodge.tiersAt old_data name) t c)
          (Lodge.topicsAt (Lodge.tiersAt new_data name) t c)) →
      Lodge.mentions (Lodge.compare_data old_data new_data) name = false := by
  intro old_data new_data name h1 h2 h
  exact Lodge.no_mention_of_unchanged _ _ _ h1 h2 (Lodge.diffDetails_nil _ _ h)

/-- Witness for C9: old entry list `["X","X"]`, new entry list `["X"]` —
structurally unequal, but invisible to the diff. -/
theorem c9_witness :
    Lodge.mentions (Lodge.compare_data
      [("A", ⟨"A", [("Interesting", [("Pokemon", ["X", "X"])])]⟩)]
      [("A", ⟨"A", [("Interesting", [("Pokemon", ["X"])])]⟩)]) "A" = false :=
  c9_multiplicity_invisible
    [("A", ⟨"A", [("Interesting", [("Pokemon", ["X", "X"])])]⟩)]
    [("A", ⟨"A", [("Interesting", [("Pokemon", ["X"])])]⟩)]
    "A" (by decide) (by decide) (by decide)

/-- C10: `compare_data` reads only the `tiers` field: when every common
identifier has identical `tiers` mappings, no modified-trainer record is
produced, whatever the other record fields (such as `name`) contain. -/
theorem c10_reads_only_tiers :
    ∀ (old_data new_data : Lodge.Dataset),
      (∀ n ∈ Lodge.keysOf old_data, n ∈ Lodge.keysOf new_data →
        Lodge.tiersAt old_data n = Lodge.tiersAt new_data n) →
      Lodge.hasModified (Lodge.compare_data old_data new_data) = false := by
  intro old_data new_data h
  unfold Lodge.hasModified
  rw [List.any_eq_false]
  intro r hr
  simp only [Lodge.compare_data, List.mem_append] at hr
  rcases hr with (hr | hr) | hr
  · simp only [Lodge.newRecsOf, List.mem_map] at hr
    obtain ⟨n, _, rfl⟩ := hr
    simp [Lodge.isModifiedRec]
  · simp only [Lodge.remRecsOf, List.mem_map] at hr
    obtain ⟨n, _, rfl⟩ := hr
    simp [Lodge.isModifiedRec]
  · simp only [Lodge.modRecsOf, List.mem_filterMap] at hr
    obtain ⟨n, hn, hmod⟩ := hr
    rw [Lodge.mem_sortB, List.mem_filter] at hn
    obtain ⟨hold, hnew⟩ := hn
    have heq : Lodge.tiersAt old_data n = Lodge.tiersAt new_data n :=
      h n hold ((Lodge.contains_iff_mem _ _).mp hnew)
    unfold Lodge.modRecordFor at hmod
    rw [heq] at hmod
    simp at hmod

/-- Witness for C10: records differing only in their `name` field yield no
modified-trainer record. -/
theorem c10_witness :
    Lodge.hasModified (Lodge.compare_data
      [("A", ⟨"Alice", [("Interesting", [("Pokemon", ["X"])])]⟩)]
      [("A", ⟨"Bob", [("Interesting", [("Pokemon", ["X"])])]⟩)]) = false :=
  c10_reads_only_tiers
    [("A", ⟨"Alice", [("Interesting", [("Pokemon", ["X"])])]⟩)]
    [("A", ⟨"Bob", [("Interesting", [("Pokemon", ["X"])])]⟩)]
    (by decide)
